import Mathlib

/-!
# A verification development of biogo

Shallow embeddings of `align/pals/pair.go`, `examples/krishna/main.go`,
`io/seqio/fasta/fasta.go`, `graphics/color/color.go` and `tree/node.go`, one
namespace for each package: first the definitions of all of them, then the
theorems.

## Coordinate mapping of packed sequences

A shallow embedding of `align/pals/pair.go`: `featureOf`, which turns an
interval of a packed (concatenated) sequence into a feature of one of the
packed records, and `NewFeaturePair`, which maps both ends of a `dp.DPHit`.

Conventions of the embedding.

* Go's `int` is `Int`. Every quantity `featureOf` computes is bounded by the
  coordinates it is given and by the lengths of the sequences, which are the
  lengths of slices held in memory, so none of its operations wraps.
* Go's integer division truncates towards zero: it is `Int.tdiv`.
* A call has one of three outcomes: it returns a value with a nil error, it
  returns a nil value with an error, or it stops in a run-time fault (an index
  out of range, a failed type assertion, an integer division by zero).
* The constant `binSize` is declared elsewhere in package `pals`; it is a
  parameter of every definition using it. A zero `binSize` makes both
  divisions of `featureOf` divisions by zero.
* Pointers (`*seq.Seq`, `*feat.Feature`, `*FeaturePair`) are values: the
  sequences handed to `featureOf` and `NewFeaturePair` are not nil.
-/

namespace pals

/-- Modelled from the spec: the part of a source record's `seq.Seq` that
`featureOf` reads, its `ID` and the value of `Len()`, the number of symbols
("ordered list of records, each with (id, start-offset, length)"). -/
structure Seq where
  ID : String
  Len : Nat
deriving DecidableEq, Repr

/-- Modelled from the spec: the type `contig` of package `pals`, one packed
record with its start offset in the packed coordinate space. The names
`from` and `to` of the source are written `from_` and `to_`. -/
structure contig where
  seq : Seq
  from_ : Int
deriving DecidableEq, Repr

/-- Modelled from the spec: the type `seqMap` of package `pals`, the ordered
list of records and the bucketed index ("bin map") from fixed-size coordinate
buckets to the index of the owning record. -/
structure seqMap where
  contigs : List contig
  binMap : List Int
deriving DecidableEq, Repr

/-- Modelled from the spec: the part of a packed `seq.Seq` that `featureOf`
reads: its `ID`, the value of `Len()` (the total length L) and the `Meta`
field, an empty interface; `Meta = none` stands for a `Meta` that does not
hold a `seqMap`, on which the type assertion `Meta.(seqMap)` faults. -/
structure PackedSeq where
  ID : String
  Len : Nat
  Meta : Option seqMap
deriving DecidableEq, Repr

/-- The fields of `feat.Feature` that `featureOf` sets. -/
structure Feature where
  ID : String
  Start : Int
  End : Int
deriving DecidableEq, Repr

/-- The errors `featureOf` builds with `bio.NewError`, one constructor for each
message format, carrying the values formatted into the message. -/
inductive bioError where
  /-- The message is `"%s: from > to"`. -/
  | fromGtTo (id : String)
  /-- The message is `"%s: bin %d out of range 0..%d"`. -/
  | binOutOfRange (id : String) (bin last : Int)
  /-- The message is `"%s: contig index %d out of range 0..%d"`. -/
  | contigIndexOutOfRange (id : String) (contigIndex count : Int)
  /-- The message is `"%s: length < 0"`. -/
  | lengthNegative (id : String)
deriving DecidableEq, Repr

/-- The outcome of a call: a value and a nil error, a nil value and an error,
or a run-time fault. -/
inductive Outcome (α : Type) where
  | ok (value : α)
  | error (err : bioError)
  | fault
deriving DecidableEq, Repr

/-- The interval after the first statement of `featureOf`: reflected through
the packed length when `comp` is set. -/
def reflected (contigs : PackedSeq) (from_ to_ : Int) (comp : Bool) : Int × Int :=
  if comp then ((contigs.Len : Int) - to_, (contigs.Len : Int) - from_) else (from_, to_)

/-- The start of the interval after `if from < 0 { from = 0 }`. -/
def clampFrom (from_ : Int) : Int :=
  if from_ < 0 then 0 else from_

/-- The end of the interval after `if to > contigs.Len() { to = contigs.Len() }`. -/
def clampTo (contigs : PackedSeq) (to_ : Int) : Int :=
  if to_ > (contigs.Len : Int) then (contigs.Len : Int) else to_

/-- The bucket of the midpoint of an interval: `(from + to) / (2 * binSize)`. -/
def binOf (binSize from_ to_ : Int) : Int :=
  (from_ + to_).tdiv (2 * binSize)

/-- The number of buckets: `(contigs.Len() + binSize - 1) / binSize`. -/
def binCountOf (binSize : Int) (contigs : PackedSeq) : Int :=
  ((contigs.Len : Int) + binSize - 1).tdiv binSize

/-- The body of `featureOf` from the bin computation on, for an interval
`from_`, `to_` that has been reflected and clamped. Both divisions have a
divisor that is zero exactly when `binSize` is. -/
def featureAt (binSize : Int) (contigs : PackedSeq) (from_ to_ : Int) : Outcome Feature :=
  if binSize = 0 then Outcome.fault
  else
    let bin := binOf binSize from_ to_
    let binCount := binCountOf binSize contigs
    if bin < 0 ∨ bin ≥ binCount then
      Outcome.error (bioError.binOutOfRange contigs.ID bin (binCount - 1))
    else
      match contigs.Meta with
      | none => Outcome.fault
      | some m =>
        match m.binMap[bin.toNat]? with
        | none => Outcome.fault
        | some contigIndex =>
          if contigIndex < 0 ∨ contigIndex ≥ (m.contigs.length : Int) then
            Outcome.error
              (bioError.contigIndexOutOfRange contigs.ID contigIndex m.contigs.length)
          else
            let length := to_ - from_
            if length < 0 then Outcome.error (bioError.lengthNegative contigs.ID)
            else
              match m.contigs[contigIndex.toNat]? with
              | none => Outcome.fault
              | some c =>
                let contigFrom := from_ - c.from_
                let contigTo := contigFrom + length
                let contigFrom := if contigFrom < 0 then 0 else contigFrom
                let contigTo :=
                  if contigTo > (c.seq.Len : Int) then (c.seq.Len : Int) else contigTo
                Outcome.ok { ID := c.seq.ID, Start := contigFrom, End := contigTo }

/-- Convert coordinates in a packed sequence into a feature: `featureOf` of
`pair.go`. -/
def featureOf (binSize : Int) (contigs : PackedSeq) (from_ to_ : Int) (comp : Bool) :
    Outcome Feature :=
  let p := reflected contigs from_ to_ comp
  if p.1 ≥ p.2 then Outcome.error (bioError.fromGtTo contigs.ID)
  else featureAt binSize contigs (clampFrom p.1) (clampTo contigs p.2)

/-- The fields of `dp.DPHit` that `NewFeaturePair` reads; `float64` stands for
the type of `Error`, whose values are copied and never computed with. -/
structure DPHit (float64 : Type) where
  Abpos : Int
  Aepos : Int
  Bbpos : Int
  Bepos : Int
  Score : Int
  Error : float64

/-- A pair of features with the score, error and strand relating them: the
type `FeaturePair` of `pair.go`. -/
structure FeaturePair (float64 : Type) where
  A : Feature
  B : Feature
  Score : Int
  Error : float64
  Strand : Int

/-- Convert a DPHit and two packed sequences into a FeaturePair:
`NewFeaturePair` of `pair.go`. -/
def NewFeaturePair {float64 : Type} (binSize : Int) (target query : PackedSeq)
    (hit : DPHit float64) (comp : Bool) : Outcome (FeaturePair float64) :=
  match featureOf binSize target hit.Abpos hit.Aepos false with
  | Outcome.error err => Outcome.error err
  | Outcome.fault => Outcome.fault
  | Outcome.ok t =>
    match featureOf binSize query hit.Bbpos hit.Bepos comp with
    | Outcome.error err => Outcome.error err
    | Outcome.fault => Outcome.fault
    | Outcome.ok q =>
      let strand : Int := if comp then -1 else 1
      Outcome.ok { A := t, B := q, Score := hit.Score, Error := hit.Error, Strand := strand }

/-- Three records, `a` on `[0, 5)`, `b` on `[5, 7)` and `c` on `[7, 16)`, and
two buckets: the first names `a`, the second names `c`. -/
def mapABC : seqMap :=
  { contigs := [⟨⟨"a", 5⟩, 0⟩, ⟨⟨"b", 2⟩, 5⟩, ⟨⟨"c", 9⟩, 7⟩], binMap := [0, 2] }

/-- A packed sequence of length 16 holding the records of `mapABC`; with a
bucket size of 8 it has two buckets, `[0, 8)` and `[8, 16)`. -/
def packedABC : PackedSeq :=
  { ID := "abc", Len := 16, Meta := some mapABC }

/-- The data-model invariant of the bucket map in the words of the
specification, "each bucket maps to exactly one record whose span covers that
bucket's midpoint": the bucket map has `binCountOf` entries and entry `b`, the
bucket starting at `b * binSize`, is the index of a record whose span
`[from, from + length)` holds the point `b * binSize + binSize / 2`. -/
def specBinMapInvariant (binSize : Int) (contigs : PackedSeq) : Bool :=
  match contigs.Meta with
  | none => false
  | some m =>
    decide ((m.binMap.length : Int) = binCountOf binSize contigs) &&
    (List.range m.binMap.length).all fun b =>
      match m.binMap[b]? with
      | none => false
      | some idx =>
        decide (0 ≤ idx) &&
        match m.contigs[idx.toNat]? with
        | none => false
        | some c =>
          decide (c.from_ ≤ (b : Int) * binSize + binSize / 2 ∧
            (b : Int) * binSize + binSize / 2 < c.from_ + (c.seq.Len : Int))

/-- The three causes of failure the specification documents for the mapping of
an interval: the interval is empty after reflection, the bucket of the
midpoint of the clamped interval is outside `[0, binCount)`, or the record
index found in the bucket map is outside the record list. -/
def documentedCause (binSize : Int) (contigs : PackedSeq) (from_ to_ : Int) (comp : Bool) :
    Prop :=
  let p := reflected contigs from_ to_ comp
  let bin := binOf binSize (clampFrom p.1) (clampTo contigs p.2)
  p.1 ≥ p.2 ∨ (bin < 0 ∨ bin ≥ binCountOf binSize contigs) ∨
    ∃ m idx, contigs.Meta = some m ∧ m.binMap[bin.toNat]? = some idx ∧
      (idx < 0 ∨ idx ≥ (m.contigs.length : Int))

end pals

/-!
# The command `krishna` (examples/krishna/main.go)

The control skeleton of `init` and `main`. The flags are a `Config`. What the
collaborators of `main` do (creating files, `packSequence`, `morass.New`, the
methods of the aligner `pals.PALS`, `WriteDPHits`) is declared elsewhere; the
outcome of each call is read from an `Env`. A run is the list of the events
that matter here, in the order they occur; `os.Exit` and the `Fatal` methods of
the loggers end the run.

The `float64` flags are only compared with `0` and copied; their values are
rationals.
-/

namespace krishna

/-- The package-level flag variables of `main.go` that `main` branches on or
copies. -/
structure Config where
  cpuprofile : String
  logToFile : Bool
  targetName : String
  queryName : String
  selfCompare : Bool
  sameStrand : Bool
  outFile : String
  minHitLen : Int
  minId : ℚ
  dpMinHitLen : Int
  dpMinId : ℚ

/-- Modelled from the spec: the dynamic-programming parameters of the aligner,
"DPParameters: {MinHitLength, MinIdentity}", the fields `MinHitLength` and
`MinId` of `pa.DPParams`. -/
structure DPParams where
  MinHitLength : Int
  MinId : ℚ
deriving DecidableEq

/-- The outcomes of the calls `main` makes to code declared elsewhere: whether
`os.Create` of the profile and of the log file succeed, whether `packSequence`
of a file returns (rather than ending the run), whether the output file opens,
whether `morass.New`, `Optimise` and `BuildIndex` return a nil error, the
DP parameters `Optimise` leaves in the aligner, and, for each value of `comp`,
whether `Align` and `WriteDPHits` return a nil error. -/
structure Env where
  profileCreated : Bool
  logCreated : Bool
  packs : String → Bool
  outputOpened : Bool
  morassCreated : Bool
  optimised : Bool
  optimisedParams : DPParams
  indexBuilt : Bool
  aligns : Bool → Bool
  writes : Bool → Bool

/-- A packed sequence, named by the call of `packSequence` that returned it:
the first call packs the target, the second the query. -/
inductive SeqRef where
  | first (name : String)
  | second (name : String)
deriving DecidableEq

/-- The events of a run of `main`. -/
inductive Event where
  /-- A call `packSequence(name)`. -/
  | pack (name : String)
  /-- The call `pals.New(target, query, selfCompare, ...)`. -/
  | newPals (target query : SeqRef) (selfCompare : Bool)
  /-- The DP parameters of the aligner after the override step, as logged
  under "Using dynamic programming parameters:". -/
  | dpParams (p : DPParams)
  /-- A call `pa.Align(comp)`. -/
  | align (comp : Bool)
  /-- A call `WriteDPHits(writer, target, query, hits, comp)`. -/
  | writeHits (comp : Bool)
  /-- The call `pa.CleanUp()` that ends `main`. -/
  | cleanUp
  /-- The end of the run by `os.Exit(code)`, directly or through `Fatalln` or
  `Fatalf` (code 1), with the format of the message; a run that ends inside
  `packSequence` has the message `packSequence`. -/
  | exit (code : Nat) (message : String)
deriving DecidableEq

/-- The override step of `main`, lines 177 to 180: the DP parameters of the
aligner after `if dpMinHitLen != 0 && dpMinId != 0 { ... }`, from the
parameters `p` that `Optimise` left. -/
def overrideDPParams (cfg : Config) (p : DPParams) : DPParams :=
  if cfg.dpMinHitLen ≠ 0 ∧ cfg.dpMinId ≠ 0 then
    { MinHitLength := cfg.minHitLen, MinId := cfg.minId }
  else p

/-- The loop `for _, comp := range [...]bool{false, true}` of `main` over the
values of `comp` still to come, followed by `pa.CleanUp()`. -/
def strandLoop (cfg : Config) (env : Env) : List Bool → List Event
  | [] => [Event.cleanUp]
  | comp :: rest =>
    let both := !cfg.sameStrand
    if both || !comp then
      if env.aligns comp then
        if env.writes comp then
          Event.align comp :: Event.writeHits comp :: strandLoop cfg env rest
        else [Event.align comp, Event.writeHits comp, Event.exit 1 "Error: %v."]
      else [Event.align comp, Event.exit 1 "Error: %v"]
    else strandLoop cfg env rest

/-- The part of `main` from `morass.New` on, lines 168 to 219, for the target
and the query that have been packed. -/
def alignStage (cfg : Config) (env : Env) (target query : SeqRef) : List Event :=
  if !env.morassCreated then [Event.exit 1 "Error: %v"]
  else
    Event.newPals target query cfg.selfCompare ::
      (if !env.optimised then [Event.exit 1 "Error: %v"]
      else
        Event.dpParams (overrideDPParams cfg env.optimisedParams) ::
          (if !env.indexBuilt then [Event.exit 1 "Error: %v"]
          else strandLoop cfg env [false, true]))

/-- The part of `main` from the choice of the query on, lines 154 to 219. -/
def queryStage (cfg : Config) (env : Env) : List Event :=
  if !cfg.selfCompare then
    if cfg.queryName ≠ "" then
      if env.packs cfg.queryName then
        Event.pack cfg.queryName ::
          alignStage cfg env (SeqRef.first cfg.targetName) (SeqRef.second cfg.queryName)
      else [Event.pack cfg.queryName, Event.exit 1 "packSequence"]
    else [Event.exit 1 "No query provided in non-self comparison."]
  else alignStage cfg env (SeqRef.first cfg.targetName) (SeqRef.first cfg.targetName)

/-- The function `main` of `main.go`: the events of a run with the flags `cfg`
in the environment `env`. -/
def main (cfg : Config) (env : Env) : List Event :=
  if cfg.cpuprofile ≠ "" ∧ env.profileCreated = false then [Event.exit 0 "Error: %v."]
  else if cfg.logToFile = true ∧ env.logCreated = false then
    [Event.exit 1 "Error: Could not open log file: %v"]
  else if cfg.targetName = "" then [Event.exit 1 "No target provided."]
  else if env.packs cfg.targetName = false then
    [Event.pack cfg.targetName, Event.exit 1 "packSequence"]
  else
    Event.pack cfg.targetName ::
      (if cfg.outFile ≠ "" ∧ env.outputOpened = false then
        [Event.exit 1 "Could not open output file: %v"]
      else queryStage cfg env)

/-- The values of `comp` of the calls of `Align` in a run, in order. -/
def alignCalls (run : List Event) : List Bool :=
  run.filterMap fun ev =>
    match ev with
    | Event.align comp => some comp
    | _ => none

/-- A run that reached the end of `main`: its last event is `pa.CleanUp()`. -/
def completed (run : List Event) : Prop :=
  run.getLast? = some Event.cleanUp

/-- A run ended by `os.Exit`: its last event is an `exit`. -/
def aborted (run : List Event) : Prop :=
  ∃ code message, run.getLast? = some (Event.exit code message)

/-- An event of alignment work: building the aligner, setting its parameters,
aligning, writing hits. -/
def isAlignmentWork : Event → Bool
  | Event.newPals _ _ _ => true
  | Event.dpParams _ => true
  | Event.align _ => true
  | Event.writeHits _ => true
  | _ => false

/-- What a stage of `main` before the strand loop does to the calls of `Align`:
they are those of the loop and the run completes when the loop does, or there
are none and the run does not complete. -/
def reachesLoop (cfg : Config) (env : Env) (run : List Event) : Prop :=
  (alignCalls run = alignCalls (strandLoop cfg env [false, true]) ∧
      (completed run ↔ completed (strandLoop cfg env [false, true])) ∧ run ≠ []) ∨
    (alignCalls run = [] ∧ ¬ completed run ∧ run ≠ [])

/-- A pointer to a `uintptr`: nil, or the address of a cell holding a value. -/
abbrev UintptrPtr := Option Nat

/-- The outcome of `init`: the run ends by `os.Exit`, `init` returns leaving
the variable `mem` with a value, or `init` stops in a run-time fault. -/
inductive InitOutcome where
  | exited (code : Nat)
  | done (mem : UintptrPtr)
  | fault
deriving DecidableEq

/-- The assignment `*p = v` through a pointer to a `uintptr`: a nil pointer
dereference when `p` is nil, else the pointer with the cell updated. -/
def storeThrough (p : UintptrPtr) (v : Nat) : Option UintptrPtr :=
  match p with
  | none => none
  | some _ => some (some v)

/-- The function `init` of `main.go` after `flag.Parse()`, for the values of
the flags `-help` and `-mem`. The variable `mem` is declared `var mem *uintptr`
with no initial value: it is nil when `init` starts. `uintptr(maxMem)` is the
value reduced to the 64 bits of a `uintptr`. -/
def init (help : Bool) (maxMem : Nat) : InitOutcome :=
  if help then InitOutcome.exited 1
  else
    let mem : UintptrPtr := none
    if maxMem = 0 then InitOutcome.done none
    else
      match storeThrough mem (maxMem % 2 ^ 64) with
      | none => InitOutcome.fault
      | some mem => InitOutcome.done mem

/-- A configuration with a target, a query and the default values of the other
flags, for both strands. -/
def cfgBoth : Config :=
  { cpuprofile := "", logToFile := false, targetName := "t.fa", queryName := "q.fa",
    selfCompare := false, sameStrand := false, outFile := "", minHitLen := 400,
    minId := 94 / 100, dpMinHitLen := 0, dpMinId := 0 }

/-- A self comparison on the same strand only. -/
def cfgSelfSame : Config :=
  { cfgBoth with queryName := "", selfCompare := true, sameStrand := true }

/-- The flags `-dplen 100 -dpid 0.9` with the default filter flags. -/
def cfgDP : Config :=
  { cfgBoth with dpMinHitLen := 100, dpMinId := 9 / 10 }

/-- An environment in which every call succeeds and `Optimise` leaves the DP
parameters `{MinHitLength = 50, MinId = 0.8}`. -/
def envOk : Env :=
  { profileCreated := true, logCreated := true, packs := fun _ => true,
    outputOpened := true, morassCreated := true, optimised := true,
    optimisedParams := { MinHitLength := 50, MinId := 8 / 10 }, indexBuilt := true,
    aligns := fun _ => true, writes := fun _ => true }

end krishna

/-!
# FASTA reading and writing (io/seqio/fasta/fasta.go)

Byte slices and strings are lists of characters. The package variables
`IDPrefix` and `SeqPrefix` have their initial values `">"` and `""`. The
functions of the Go library that `Read` calls (`bufio.Reader.ReadBytes`,
`bytes.Replace`, `bytes.Split`, `bytes.Join`) follow their documentation.
The state of a `Reader` is the input it has not read yet.
-/

namespace fasta

set_option linter.dupNamespace false in
/-- Modelled from the spec: the fields `ID` and `Seq` of `seq.Seq`, "ordered
(id, symbol-sequence) pairs"; `Len()` is the number of symbols. -/
structure Seq where
  ID : List Char
  Seq : List Char
deriving DecidableEq

/-- The slice expression `s[lo:hi]`, for `lo ≤ hi ≤ len(s)`. -/
def slice {α : Type} (s : List α) (lo hi : Nat) : List α :=
  (s.drop lo).take (hi - lo)

/-- The loop `for i := 0; i*width <= s.Len(); i++` of `Format`, from the value
`i` of the counter and the text `sequence` built so far; `fuel` bounds the
number of iterations. -/
def formatLoop (seq : List Char) (width : Nat) : Nat → Nat → List Char → List Char
  | 0, _, sequence => sequence
  | fuel + 1, i, sequence =>
    if i * width ≤ seq.length then
      let endLinePos := min (width * (i + 1)) seq.length
      formatLoop seq width fuel (i + 1) (sequence ++ slice seq (width * i) endLinePos ++ ['\n'])
    else sequence

/-- Format a single sequence into a fasta string: `Format` of `fasta.go`. For
`width > 0` the loop runs `len / width + 1` times, which is at most the
`len + 1` iterations it is given. -/
def Format (s : Seq) (width : Int) : List Char :=
  let sequence := '>' :: s.ID ++ ['\n']
  if width > 0 then formatLoop s.Seq width.toNat (s.Seq.length + 1) 0 sequence
  else sequence ++ s.Seq ++ ['\n']

/-- The call `ReadBytes(delim)` of a `bufio.Reader` on the input left: the
data up to and including the first `delim`, the input left after it, and
whether the error is not nil (the input ended before a `delim`). -/
def readBytes (delim : Char) : List Char → List Char × List Char × Bool
  | [] => ([], [], true)
  | c :: cs =>
    if c = delim then ([c], cs, false)
    else
      let r := readBytes delim cs
      (c :: r.1, r.2.1, r.2.2)

/-- The scan of `bytes.Replace(s, old, new, -1)` for a non-empty `old`, left to
right without overlap; `skip` counts the bytes of a match still to pass. -/
def replaceGo (old new : List Char) : Nat → List Char → List Char
  | _, [] => []
  | skip + 1, _ :: cs => replaceGo old new skip cs
  | 0, c :: cs =>
    if old.isPrefixOf (c :: cs) then new ++ replaceGo old new (old.length - 1) cs
    else c :: replaceGo old new 0 cs

/-- The call `bytes.Replace(s, old, new, -1)` for a non-empty `old`. -/
def bytesReplace (s old new : List Char) : List Char :=
  replaceGo old new 0 s

/-- The three replacements of `Read` under "sanitize newlines". -/
def sanitize (read : List Char) : List Char :=
  bytesReplace (bytesReplace (bytesReplace read ['\r', '\n'] ['\n']) ['\n', '\r'] ['\n'])
    ['\r'] ['\n']

/-- What `Read` returns: a sequence and a nil error, `io.EOF`, or the error
"Invalid fasta entry". -/
inductive ReadResult where
  | ok (sequence : Seq)
  | eof
  | invalid
deriving DecidableEq

/-- The body of `Read` for the bytes `read` of more than one byte that
`ReadBytes` returned: the label and the body of the record, then the test on
their lengths. `bytes.Split(read, "\n")` is `splitOn`. -/
def parseRecord (read : List Char) : ReadResult :=
  let read := sanitize read
  let lines := read.splitOn '\n'
  let label := if lines.length > 1 then lines.headD [] else []
  let body := if lines.length > 1 then (slice lines 1 (lines.length - 1)).flatten else []
  if label.length > 0 ∧ body.length > 0 then ReadResult.ok { ID := label, Seq := body }
  else ReadResult.invalid

/-- The loop of `Read` on the input left, for at most `fuel` iterations:
the result of `Read` and the input left after it, or `none` when the
iterations run out. -/
def readLoop : Nat → List Char → Option (ReadResult × List Char)
  | 0, _ => none
  | fuel + 1, input =>
    let r := readBytes '>' input
    if r.1.length > 1 then some (parseRecord r.1, r.2.1)
    else if r.2.2 then some (ReadResult.eof, r.2.1)
    else readLoop fuel r.2.1

/-- Read a single sequence and return it or an error: `Read` of `fasta.go`,
with the input left. An iteration that does not end the loop reads one byte,
so the loop ends within `len + 1` iterations. -/
def Read (input : List Char) : Option (ReadResult × List Char) :=
  readLoop (input.length + 1) input

end fasta

/-!
# Colour conversion (graphics/color/color.go)

The `float64` operations of `RGBAtoHSVA` are exact arithmetic on rationals:
the channel values are integers and the function only adds, subtracts,
multiplies, divides, compares and takes `math.Mod`.
-/

namespace color

/-- The constant `maxChannelValue = float64(0xFFFF)`. -/
def maxChannelValue : ℚ := 65535

/-- Truncation towards zero. -/
def trunc (q : ℚ) : ℤ :=
  if 0 ≤ q then ⌊q⌋ else ⌈q⌉

/-- The remainder `math.Mod(x, y)` for `y ≠ 0`: `x - y * trunc(x / y)`, of
magnitude less than `y` and with the sign of `x`. -/
def fmod (x y : ℚ) : ℚ :=
  x - y * (trunc (x / y) : ℚ)

/-- A Hue/Saturation/Value/Alpha colour: the type `HSVA` of `color.go`. -/
structure HSVA where
  H : ℚ
  S : ℚ
  V : ℚ
  A : ℚ
deriving DecidableEq

/-- Convert r, g, b, a to HSVA: `RGBAtoHSVA` of `color.go`. The `switch` has no
default case: `hue` keeps its zero value when no case applies. -/
def RGBAtoHSVA (r g b a : Nat) : HSVA :=
  let red : ℚ := r
  let blue : ℚ := b
  let green : ℚ := g
  let max := Max.max (Max.max red green) blue
  let min := Min.min (Min.min red green) blue
  let chroma := max - min
  let hue : ℚ :=
    if chroma = 0 then 0
    else if max = red then fmod ((green - blue) / chroma) 6
    else if max = green then (blue - red) / chroma + 2
    else if max = blue then (red - green) / chroma + 4
    else 0
  let hue := hue * 60
  let s : ℚ := if chroma ≠ 0 then chroma / max else 0
  { H := fmod (fmod hue 360 + 360) 360,
    S := s,
    V := max / maxChannelValue,
    A := (a : ℚ) / maxChannelValue }

end color

/-!
# Tree traversal (tree/node.go)

A pointer `*Node` is the index of the node in a table that holds, for each
node, the list `children.nodeList` of its children; `this == self` compares
indices. `Nodes` receives what the goroutine of `PreOrder` sends on the
channel until the channel is closed, with a nil `reaper`: its result is the
list of the nodes sent, in order.
-/

namespace tree

/-- Modelled from the spec: the nodes of a tree, each with the list of its
children in stored order (the field `children`, a `NodeList`, of `Node`);
"a generic phylogenetic tree data structure". -/
structure NodeTable where
  children : List (List Nat)
deriving DecidableEq

/-- The list `this.children.nodeList` of a node. -/
def childrenOf (t : NodeTable) (this : Nat) : List Nat :=
  t.children.getD this []

/-- The loop `for len(stack) > 0` of `PreOrder`, from the stack and the list of
the nodes sent so far, for at most `fuel` iterations: the nodes sent when the
loop ends, or `none` when the iterations run out. -/
def preOrderLoop (t : NodeTable) (self : Nat) (includeSelf : Bool) :
    Nat → List Nat → List Nat → Option (List Nat)
  | 0, _, _ => none
  | fuel + 1, stack, sent =>
    if stack.length > 0 then
      let i := stack.length - 1
      let this := stack.getD i 0
      let stack := stack.take i
      let sent := if this = self ∨ includeSelf = true then sent ++ [this] else sent
      let stack :=
        if (childrenOf t this).length > 0 then stack ++ (childrenOf t this ++ stack)
        else stack
      preOrderLoop t self includeSelf fuel stack sent
    else some sent

/-- The call `self.Nodes(PreOrder, includeSelf)`: the nodes that `PreOrder`
sends, starting from `stack := []*Node{self}`. -/
def NodesPreOrder (t : NodeTable) (self : Nat) (includeSelf : Bool) (fuel : Nat) :
    Option (List Nat) :=
  preOrderLoop t self includeSelf fuel [self] []

/-- A root `0` with two leaf children `1` and `2`, in that order. -/
def twoLeaves : NodeTable :=
  { children := [[1, 2], [], []] }

/-- A root `0` with the children `1`, a leaf, and `2`, whose only child is the
leaf `3`. -/
def nested : NodeTable :=
  { children := [[1, 2], [], [3], []] }

end tree

namespace pals

/-! ## Stepping through `featureOf` -/

theorem featureOf_eq (binSize : Int) (contigs : PackedSeq) (from_ to_ : Int) (comp : Bool) :
    featureOf binSize contigs from_ to_ comp =
      if (reflected contigs from_ to_ comp).1 ≥ (reflected contigs from_ to_ comp).2 then
        Outcome.error (bioError.fromGtTo contigs.ID)
      else featureAt binSize contigs (clampFrom (reflected contigs from_ to_ comp).1)
        (clampTo contigs (reflected contigs from_ to_ comp).2) := rfl

theorem clampFrom_eq_max (x : Int) : clampFrom x = max x 0 := by
  unfold clampFrom
  split <;> omega

theorem clampTo_eq_min (contigs : PackedSeq) (x : Int) :
    clampTo contigs x = min x (contigs.Len : Int) := by
  unfold clampTo
  split <;> omega

theorem featureAt_ok {binSize : Int} {contigs : PackedSeq} {x y : Int} {f : Feature}
    (h : featureAt binSize contigs x y = Outcome.ok f) :
    binSize ≠ 0 ∧ 0 ≤ binOf binSize x y ∧ binOf binSize x y < binCountOf binSize contigs ∧
      x ≤ y ∧
      ∃ m idx c, contigs.Meta = some m ∧
        m.binMap[(binOf binSize x y).toNat]? = some idx ∧
        0 ≤ idx ∧ idx < (m.contigs.length : Int) ∧
        m.contigs[idx.toNat]? = some c ∧
        f = { ID := c.seq.ID, Start := max (x - c.from_) 0,
              End := min (y - c.from_) (c.seq.Len : Int) } := by
  unfold featureAt at h
  split at h
  · cases h
  · rename_i hb
    simp only at h
    split at h
    · cases h
    · rename_i hbin
      split at h
      · cases h
      · rename_i m hm
        split at h
        · cases h
        · rename_i idx hidx
          split at h
          · cases h
          · rename_i hi
            split at h
            · cases h
            · rename_i hlen
              split at h
              · cases h
              · rename_i c hc
                refine ⟨hb, by omega, by omega, by omega, m, idx, c, hm, hidx, by omega,
                  by omega, hc, ?_⟩
                cases h
                congr 1
                · split <;> omega
                · split <;> omega

theorem featureAt_error {binSize : Int} {contigs : PackedSeq} {x y : Int} {e : bioError}
    (h : featureAt binSize contigs x y = Outcome.error e) :
    ((binOf binSize x y < 0 ∨ binOf binSize x y ≥ binCountOf binSize contigs) ∧
        e = bioError.binOutOfRange contigs.ID (binOf binSize x y)
          (binCountOf binSize contigs - 1)) ∨
      (∃ m idx, contigs.Meta = some m ∧ m.binMap[(binOf binSize x y).toNat]? = some idx ∧
        (idx < 0 ∨ idx ≥ (m.contigs.length : Int)) ∧
        e = bioError.contigIndexOutOfRange contigs.ID idx m.contigs.length) ∨
      (y < x ∧ e = bioError.lengthNegative contigs.ID) := by
  unfold featureAt at h
  split at h
  · cases h
  · simp only at h
    split at h
    · rename_i hbin
      cases h
      exact Or.inl ⟨hbin, rfl⟩
    · split at h
      · cases h
      · rename_i m hm
        split at h
        · cases h
        · rename_i idx hidx
          split at h
          · rename_i hi
            cases h
            exact Or.inr (Or.inl ⟨m, idx, hm, hidx, hi, rfl⟩)
          · split at h
            · rename_i hlen
              cases h
              exact Or.inr (Or.inr ⟨by omega, rfl⟩)
            · split at h <;> cases h

theorem featureAt_ok_of {binSize : Int} {contigs : PackedSeq} {x y : Int} {m : seqMap}
    {idx : Int} (hb : binSize ≠ 0) (h0 : 0 ≤ binOf binSize x y)
    (h1 : binOf binSize x y < binCountOf binSize contigs) (hxy : x ≤ y)
    (hm : contigs.Meta = some m) (hidx : m.binMap[(binOf binSize x y).toNat]? = some idx)
    (hi0 : 0 ≤ idx) (hi1 : idx < (m.contigs.length : Int)) :
    ∃ f, featureAt binSize contigs x y = Outcome.ok f := by
  have hlt : idx.toNat < m.contigs.length := by omega
  have hc : m.contigs[idx.toNat]? = some (m.contigs[idx.toNat]) := List.getElem?_eq_getElem hlt
  have hbin : ¬ (binOf binSize x y < 0 ∨ binOf binSize x y ≥ binCountOf binSize contigs) := by
    omega
  have hi : ¬ (idx < 0 ∨ idx ≥ (m.contigs.length : Int)) := by omega
  have hlen : ¬ (y - x < 0) := by omega
  unfold featureAt
  simp only [hb, if_false, hbin, hm, hidx, hi, hlen, hc]
  exact ⟨_, rfl⟩

theorem binOf_lt_binCountOf {binSize : Int} {contigs : PackedSeq} {x y : Int}
    (hb : 0 < binSize) (hx : 0 ≤ x) (hxy : x < y) (hy : y ≤ (contigs.Len : Int)) :
    0 ≤ binOf binSize x y ∧ binOf binSize x y < binCountOf binSize contigs := by
  unfold binOf binCountOf
  rw [Int.tdiv_eq_ediv (by omega) (by omega), Int.tdiv_eq_ediv (by omega) (by omega)]
  constructor
  · exact Int.ediv_nonneg (by omega) (by omega)
  · apply Int.ediv_lt_of_lt_mul (by omega)
    have h1 := Int.ediv_add_emod ((contigs.Len : Int) + binSize - 1) binSize
    have h2 := Int.emod_lt_of_pos ((contigs.Len : Int) + binSize - 1) hb
    have h3 : ((contigs.Len : Int) + binSize - 1) / binSize * (2 * binSize) =
        2 * (binSize * (((contigs.Len : Int) + binSize - 1) / binSize)) := by ring
    rw [h3]
    omega

/-! ## Claims -/

/-- C1. Reflection: with `comp` set, `featureOf` at `s`, `e` has the same
outcome (the same feature, the same error or the same fault) as `featureOf`
without `comp` at `L - e`, `L - s`, where `L` is the packed length. -/
theorem featureOf_reflection (binSize : Int) (contigs : PackedSeq) (s e : Int) :
    featureOf binSize contigs s e true =
      featureOf binSize contigs ((contigs.Len : Int) - e) ((contigs.Len : Int) - s) false := by
  simp [featureOf_eq, reflected]

/-- C2. Round trip: for an interval with `0 ≤ from < to ≤ L` that `featureOf`
maps without `comp` to a feature, the feature belongs to the record `c` that
the bucket of the midpoint names; adding the start offset of `c` to `Start` and
`End` gives back `from` and `to` when the interval lies inside the span
`[c.from, c.from + c.length)` of `c`, and in every case gives `from` and `to`
clamped to that span. -/
theorem featureOf_round_trip (binSize : Int) (contigs : PackedSeq) (from_ to_ : Int)
    (f : Feature) (h0 : 0 ≤ from_) (h1 : from_ < to_) (h2 : to_ ≤ (contigs.Len : Int))
    (h : featureOf binSize contigs from_ to_ false = Outcome.ok f) :
    ∃ m idx c, contigs.Meta = some m ∧
      m.binMap[(binOf binSize from_ to_).toNat]? = some idx ∧
      m.contigs[idx.toNat]? = some c ∧ f.ID = c.seq.ID ∧
      (c.from_ ≤ from_ ∧ to_ ≤ c.from_ + (c.seq.Len : Int) →
        f.Start + c.from_ = from_ ∧ f.End + c.from_ = to_) ∧
      f.Start + c.from_ = max from_ c.from_ ∧
      f.End + c.from_ = min to_ (c.from_ + (c.seq.Len : Int)) := by
  have hlt : ¬ from_ ≥ to_ := by omega
  have hf : clampFrom from_ = from_ := by rw [clampFrom_eq_max]; omega
  have ht : clampTo contigs to_ = to_ := by rw [clampTo_eq_min]; omega
  simp only [featureOf_eq, reflected, Bool.false_eq_true, if_false, hlt, hf, ht] at h
  obtain ⟨-, -, -, -, m, idx, c, hm, hidx, -, -, hc, rfl⟩ := featureAt_ok h
  refine ⟨m, idx, c, hm, hidx, hc, rfl, ?_, ?_, ?_⟩
  · rintro ⟨ha, hb⟩
    constructor <;> simp only <;> omega
  · simp only; omega
  · simp only; omega

theorem featureOf_round_trip_witness :
    (0 : Int) ≤ 1 ∧ (1 : Int) < 3 ∧ (3 : Int) ≤ (packedABC.Len : Int) ∧
      ∃ m idx c, packedABC.Meta = some m ∧
        m.binMap[(binOf 8 1 3).toNat]? = some idx ∧
        m.contigs[idx.toNat]? = some c ∧ (⟨"a", 1, 3⟩ : Feature).ID = c.seq.ID ∧
        (c.from_ ≤ 1 ∧ 3 ≤ c.from_ + (c.seq.Len : Int) →
          (⟨"a", 1, 3⟩ : Feature).Start + c.from_ = 1 ∧
            (⟨"a", 1, 3⟩ : Feature).End + c.from_ = 3) ∧
        (⟨"a", 1, 3⟩ : Feature).Start + c.from_ = max 1 c.from_ ∧
        (⟨"a", 1, 3⟩ : Feature).End + c.from_ = min 3 (c.from_ + (c.seq.Len : Int)) :=
  ⟨by decide, by decide, by decide,
    featureOf_round_trip 8 packedABC 1 3 ⟨"a", 1, 3⟩ (by decide) (by decide) (by decide)
      (by decide)⟩

/-- C3, as the code has it. Whenever `featureOf` returns a feature, it is a
feature of the record `c` that the bucket of the midpoint names, with
`0 ≤ Start` and `End ≤` the length of `c`; and `Start ≤ End` holds exactly when
the clamped interval `[from', to']` meets the span of `c`, that is when
`from' ≤ c.from + c.length` and `c.from ≤ to'`. -/
theorem featureOf_within_record (binSize : Int) (contigs : PackedSeq) (from_ to_ : Int)
    (comp : Bool) (f : Feature)
    (h : featureOf binSize contigs from_ to_ comp = Outcome.ok f) :
    ∃ m idx c, contigs.Meta = some m ∧
      m.binMap[(binOf binSize (clampFrom (reflected contigs from_ to_ comp).1)
        (clampTo contigs (reflected contigs from_ to_ comp).2)).toNat]? = some idx ∧
      m.contigs[idx.toNat]? = some c ∧ f.ID = c.seq.ID ∧
      0 ≤ f.Start ∧ f.End ≤ (c.seq.Len : Int) ∧
      (f.Start ≤ f.End ↔
        clampFrom (reflected contigs from_ to_ comp).1 ≤ c.from_ + (c.seq.Len : Int) ∧
          c.from_ ≤ clampTo contigs (reflected contigs from_ to_ comp).2) := by
  rw [featureOf_eq] at h
  split at h
  · cases h
  · obtain ⟨-, -, -, hxy, m, idx, c, hm, hidx, -, -, hc, rfl⟩ := featureAt_ok h
    refine ⟨m, idx, c, hm, hidx, hc, rfl, ?_, ?_, ?_⟩
    · simp only; omega
    · simp only; omega
    · simp only; omega

theorem featureOf_within_record_witness :
    ∃ m idx c, packedABC.Meta = some m ∧
      m.binMap[(binOf 8 (clampFrom (reflected packedABC 6 8 false).1)
        (clampTo packedABC (reflected packedABC 6 8 false).2)).toNat]? = some idx ∧
      m.contigs[idx.toNat]? = some c ∧ (⟨"a", 6, 5⟩ : Feature).ID = c.seq.ID ∧
      0 ≤ (⟨"a", 6, 5⟩ : Feature).Start ∧ (⟨"a", 6, 5⟩ : Feature).End ≤ (c.seq.Len : Int) ∧
      ((⟨"a", 6, 5⟩ : Feature).Start ≤ (⟨"a", 6, 5⟩ : Feature).End ↔
        clampFrom (reflected packedABC 6 8 false).1 ≤ c.from_ + (c.seq.Len : Int) ∧
          c.from_ ≤ clampTo packedABC (reflected packedABC 6 8 false).2) :=
  featureOf_within_record 8 packedABC 6 8 false ⟨"a", 6, 5⟩ (by decide)

/-- C3, as the specification states it, fails. In `packedABC`, whose bucket map
satisfies the invariant, the interval `[6, 8)` crosses the boundary between the
records `b` and `c`; its midpoint falls in the first bucket, which names `a`,
and `featureOf` returns the feature `a` with `Start = 6` and `End = 5`:
`Start ≤ End` does not hold. -/
theorem featureOf_within_record_counterexample :
    specBinMapInvariant 8 packedABC = true ∧
      featureOf 8 packedABC 6 8 false = Outcome.ok ⟨"a", 6, 5⟩ ∧
      mapABC.contigs[0]? = some ⟨⟨"a", 5⟩, 0⟩ ∧
      ¬ (0 ≤ (⟨"a", 6, 5⟩ : Feature).Start ∧
        (⟨"a", 6, 5⟩ : Feature).Start ≤ (⟨"a", 6, 5⟩ : Feature).End ∧
        (⟨"a", 6, 5⟩ : Feature).End ≤ ((⟨"a", 5⟩ : Seq).Len : Int)) := by
  decide

/-- C4. An interval that is empty or inverted after reflection is refused:
if `comp` is unset and `from ≥ to`, or `comp` is set and `L - to ≥ L - from`,
then `featureOf` returns the error `from > to` and no feature, whatever the
bucket map holds. -/
theorem featureOf_empty_interval (binSize : Int) (contigs : PackedSeq) (from_ to_ : Int)
    (comp : Bool)
    (h : (comp = false ∧ from_ ≥ to_) ∨
      (comp = true ∧ (contigs.Len : Int) - to_ ≥ (contigs.Len : Int) - from_)) :
    featureOf binSize contigs from_ to_ comp = Outcome.error (bioError.fromGtTo contigs.ID) := by
  rcases h with ⟨hc, h⟩ | ⟨hc, h⟩ <;> subst hc <;> simp [featureOf_eq, reflected, h]

theorem featureOf_empty_interval_witness :
    featureOf 8 packedABC 9 4 false = Outcome.error (bioError.fromGtTo "abc") ∧
      featureOf 8 packedABC 4 4 true = Outcome.error (bioError.fromGtTo "abc") :=
  ⟨featureOf_empty_interval 8 packedABC 9 4 false (Or.inl ⟨rfl, by decide⟩),
    featureOf_empty_interval 8 packedABC 4 4 true (Or.inr ⟨rfl, by decide⟩)⟩

/-- C5, as the code has it. Whenever `featureOf` returns an error, either one
of the three documented causes holds (the interval is empty after reflection,
the bucket index is outside `[0, binCount)`, the record index is outside the
record list), or the error is `length < 0`: the clamped interval is inverted,
`to' < from'`, which happens only for an interval lying wholly below `0` or
wholly above `L`. -/
theorem featureOf_error_cause (binSize : Int) (contigs : PackedSeq) (from_ to_ : Int)
    (comp : Bool) (e : bioError)
    (h : featureOf binSize contigs from_ to_ comp = Outcome.error e) :
    documentedCause binSize contigs from_ to_ comp ∨
      (e = bioError.lengthNegative contigs.ID ∧
        clampTo contigs (reflected contigs from_ to_ comp).2 <
          clampFrom (reflected contigs from_ to_ comp).1 ∧
        ((reflected contigs from_ to_ comp).2 < 0 ∨
          (contigs.Len : Int) < (reflected contigs from_ to_ comp).1)) := by
  rw [featureOf_eq] at h
  unfold documentedCause
  split at h
  · rename_i hge
    exact Or.inl (Or.inl hge)
  · rename_i hlt
    rcases featureAt_error h with ⟨hbin, -⟩ | ⟨m, idx, hm, hidx, hi, -⟩ | ⟨hyx, he⟩
    · exact Or.inl (Or.inr (Or.inl hbin))
    · exact Or.inl (Or.inr (Or.inr ⟨m, idx, hm, hidx, hi⟩))
    · refine Or.inr ⟨he, hyx, ?_⟩
      rw [clampFrom_eq_max, clampTo_eq_min] at hyx
      omega

theorem featureOf_error_cause_witness :
    documentedCause 8 packedABC (-5) (-2) false ∨
      (bioError.lengthNegative "abc" = bioError.lengthNegative packedABC.ID ∧
        clampTo packedABC (reflected packedABC (-5) (-2) false).2 <
          clampFrom (reflected packedABC (-5) (-2) false).1 ∧
        ((reflected packedABC (-5) (-2) false).2 < 0 ∨
          (packedABC.Len : Int) < (reflected packedABC (-5) (-2) false).1)) :=
  featureOf_error_cause 8 packedABC (-5) (-2) false (bioError.lengthNegative "abc")
    (by decide)

/-- C5, as the specification states it, fails. In `packedABC` the interval
`[-5, -2)` is not empty, the bucket of its clamped midpoint is bucket 0 of 2
and that bucket names record 0 of 3, yet `featureOf` returns the error
`length < 0`: none of the three documented causes holds. -/
theorem featureOf_error_cause_counterexample :
    featureOf 8 packedABC (-5) (-2) false =
        Outcome.error (bioError.lengthNegative "abc") ∧
      ¬ documentedCause 8 packedABC (-5) (-2) false := by
  refine ⟨by decide, ?_⟩
  unfold documentedCause
  rintro (h | h | ⟨m, idx, hm, hidx, hi⟩)
  · revert h; decide
  · revert h; decide
  · have hm2 : m = mapABC := (Option.some.inj hm).symm
    subst hm2
    have hidx2 : idx = 0 := (Option.some.inj hidx).symm
    subst hidx2
    revert hi; decide

/-- C6. Global clamping: for `from < to`, `featureOf` without `comp` has the
same outcome at `from`, `to` as at `max from 0`, `min to L`, whenever the
clamped interval is not empty. -/
theorem featureOf_global_clamp (binSize : Int) (contigs : PackedSeq) (from_ to_ : Int)
    (h : from_ < to_) (hc : max from_ 0 < min to_ (contigs.Len : Int)) :
    featureOf binSize contigs from_ to_ false =
      featureOf binSize contigs (max from_ 0) (min to_ (contigs.Len : Int)) false := by
  have h1 : ¬ from_ ≥ to_ := by omega
  have h2 : ¬ max from_ 0 ≥ min to_ (contigs.Len : Int) := by omega
  have h3 : max (max from_ 0) 0 = max from_ 0 := by omega
  have h4 : min (min to_ (contigs.Len : Int)) (contigs.Len : Int) =
      min to_ (contigs.Len : Int) := by omega
  simp only [featureOf_eq, reflected, Bool.false_eq_true, if_false, h1, h2, clampFrom_eq_max,
    clampTo_eq_min, h3, h4]

theorem featureOf_global_clamp_witness :
    featureOf 8 packedABC (-3) 30 false = featureOf 8 packedABC 0 16 false :=
  featureOf_global_clamp 8 packedABC (-3) 30 (by decide) (by decide)

/-- C7. Endpoints that run over the ends are not fatal: for a packed sequence
of length `L > 0` and `binSize > 0` whose bucket map has `binCount` entries,
each a valid record index, and for `from < to` with `from < L` and `to > 0`,
the bucket of the clamped interval lies in `[0, binCount)`, the bucket map has
an entry for it, the clamped interval is not inverted, and `featureOf` without
`comp` returns a feature. -/
theorem featureOf_overlap_succeeds (binSize : Int) (contigs : PackedSeq) (m : seqMap)
    (from_ to_ : Int) (hL : 0 < contigs.Len) (hb : 0 < binSize)
    (hm : contigs.Meta = some m)
    (hcount : (m.binMap.length : Int) = binCountOf binSize contigs)
    (hvalid : ∀ idx ∈ m.binMap, 0 ≤ idx ∧ idx < (m.contigs.length : Int))
    (h : from_ < to_) (h1 : from_ < (contigs.Len : Int)) (h2 : 0 < to_) :
    0 ≤ binOf binSize (max from_ 0) (min to_ (contigs.Len : Int)) ∧
      binOf binSize (max from_ 0) (min to_ (contigs.Len : Int)) < binCountOf binSize contigs ∧
      (∃ idx, m.binMap[(binOf binSize (max from_ 0) (min to_ (contigs.Len : Int))).toNat]? =
        some idx) ∧
      0 ≤ min to_ (contigs.Len : Int) - max from_ 0 ∧
      ∃ f, featureOf binSize contigs from_ to_ false = Outcome.ok f := by
  have hL2 : (0 : Int) < (contigs.Len : Int) := by exact_mod_cast hL
  obtain ⟨hb0, hb1⟩ := @binOf_lt_binCountOf binSize contigs (max from_ 0)
    (min to_ (contigs.Len : Int)) hb (by omega) (by omega) (by omega)
  have hlt : (binOf binSize (max from_ 0) (min to_ (contigs.Len : Int))).toNat <
      m.binMap.length := by omega
  have hidx := List.getElem?_eq_getElem hlt
  obtain ⟨hi0, hi1⟩ := hvalid _ (List.getElem_mem hlt)
  refine ⟨hb0, hb1, ⟨_, hidx⟩, by omega, ?_⟩
  have hlt2 : ¬ from_ ≥ to_ := by omega
  simp only [featureOf_eq, reflected, Bool.false_eq_true, if_false, hlt2, clampFrom_eq_max,
    clampTo_eq_min]
  exact featureAt_ok_of (by omega) hb0 hb1 (by omega) hm hidx hi0 hi1

theorem featureOf_overlap_succeeds_witness :
    0 ≤ binOf 8 (max (-3) 0) (min 30 (packedABC.Len : Int)) ∧
      binOf 8 (max (-3) 0) (min 30 (packedABC.Len : Int)) < binCountOf 8 packedABC ∧
      (∃ idx, mapABC.binMap[(binOf 8 (max (-3) 0)
        (min 30 (packedABC.Len : Int))).toNat]? = some idx) ∧
      0 ≤ min 30 (packedABC.Len : Int) - max (-3) 0 ∧
      ∃ f, featureOf 8 packedABC (-3) 30 false = Outcome.ok f :=
  featureOf_overlap_succeeds 8 packedABC mapABC (-3) 30 (by decide) (by decide) rfl (by decide) (by decide) (by decide) (by decide)
    (by decide)

/-- C8. On success `featureOf` returns the record-local interval of the
record of the bucket. With `from' = max from 0` and `to' = min to L` the
globally clamped endpoints (of `L - to`, `L - from` when `comp` is set), the
bucket `(from' + to') / (2 * binSize)` lies in `[0, binCount)`, the bucket map
holds at that bucket a valid index of a record `c`, and the feature is
`{ID = c.seq.ID, Start = max (from' - c.from) 0, End = min (to' - c.from)
c.seq.Len}`. -/
theorem featureOf_ok_value (binSize : Int) (contigs : PackedSeq) (from_ to_ : Int)
    (comp : Bool) (f : Feature) (from' to' : Int)
    (hfrom : from' = max (if comp = true then (contigs.Len : Int) - to_ else from_) 0)
    (hto : to' =
      min (if comp = true then (contigs.Len : Int) - from_ else to_) (contigs.Len : Int))
    (h : featureOf binSize contigs from_ to_ comp = Outcome.ok f) :
    ∃ m idx c, contigs.Meta = some m ∧
      0 ≤ (from' + to').tdiv (2 * binSize) ∧
      (from' + to').tdiv (2 * binSize) < ((contigs.Len : Int) + binSize - 1).tdiv binSize ∧
      m.binMap[((from' + to').tdiv (2 * binSize)).toNat]? = some idx ∧
      0 ≤ idx ∧ idx < (m.contigs.length : Int) ∧ m.contigs[idx.toNat]? = some c ∧
      f = Feature.mk c.seq.ID (max (from' - c.from_) 0)
        (min (to' - c.from_) (c.seq.Len : Int)) := by
  have hf1 : clampFrom (reflected contigs from_ to_ comp).1 = from' := by
    rw [clampFrom_eq_max, hfrom]
    cases comp <;> simp [reflected]
  have ht1 : clampTo contigs (reflected contigs from_ to_ comp).2 = to' := by
    rw [clampTo_eq_min, hto]
    cases comp <;> simp [reflected]
  rw [featureOf_eq] at h
  split at h
  · cases h
  · rw [hf1, ht1] at h
    obtain ⟨-, hb0, hb1, -, m, idx, c, hm, hidx, hi0, hi1, hc, hf⟩ := featureAt_ok h
    exact ⟨m, idx, c, hm, hb0, hb1, hidx, hi0, hi1, hc, hf⟩

theorem featureOf_ok_value_witness :
    (∃ m idx c, packedABC.Meta = some m ∧
        0 ≤ ((0 : Int) + 16).tdiv (2 * 8) ∧
        ((0 : Int) + 16).tdiv (2 * 8) < ((packedABC.Len : Int) + 8 - 1).tdiv 8 ∧
        m.binMap[(((0 : Int) + 16).tdiv (2 * 8)).toNat]? = some idx ∧
        0 ≤ idx ∧ idx < (m.contigs.length : Int) ∧ m.contigs[idx.toNat]? = some c ∧
        (⟨"c", 0, 9⟩ : Feature) =
          Feature.mk c.seq.ID (max (0 - c.from_) 0) (min (16 - c.from_) (c.seq.Len : Int))) ∧
      ∃ m idx c, packedABC.Meta = some m ∧
        0 ≤ ((4 : Int) + 15).tdiv (2 * 8) ∧
        ((4 : Int) + 15).tdiv (2 * 8) < ((packedABC.Len : Int) + 8 - 1).tdiv 8 ∧
        m.binMap[(((4 : Int) + 15).tdiv (2 * 8)).toNat]? = some idx ∧
        0 ≤ idx ∧ idx < (m.contigs.length : Int) ∧ m.contigs[idx.toNat]? = some c ∧
        (⟨"c", 0, 8⟩ : Feature) =
          Feature.mk c.seq.ID (max (4 - c.from_) 0) (min (15 - c.from_) (c.seq.Len : Int)) :=
  ⟨featureOf_ok_value 8 packedABC (-3) 30 false ⟨"c", 0, 9⟩ 0 16 (by decide) (by decide)
      (by decide),
    featureOf_ok_value 8 packedABC 1 12 true ⟨"c", 0, 8⟩ 4 15 (by decide) (by decide)
      (by decide)⟩

/-- C9. Whenever `NewFeaturePair` returns a pair, the pair carries the score
and the error of the hit unchanged, and its strand is `-1` if `comp` is set and
`+1` if it is not. -/
theorem NewFeaturePair_score_error_strand {float64 : Type} (binSize : Int)
    (target query : PackedSeq) (hit : DPHit float64) (comp : Bool)
    (pair : FeaturePair float64)
    (h : NewFeaturePair binSize target query hit comp = Outcome.ok pair) :
    pair.Score = hit.Score ∧ pair.Error = hit.Error ∧
      (comp = true → pair.Strand = -1) ∧ (comp = false → pair.Strand = 1) := by
  unfold NewFeaturePair at h
  split at h
  · cases h
  · cases h
  · split at h
    · cases h
    · cases h
    · cases h
      refine ⟨rfl, rfl, ?_, ?_⟩
      · intro hc; simp [hc]
      · intro hc; simp [hc]

theorem NewFeaturePair_score_error_strand_witness :
    (FeaturePair.mk ⟨"a", 1, 3⟩ ⟨"c", 0, 8⟩ 42 (1 / 20 : ℚ) (-1)).Score = 42 ∧
      (FeaturePair.mk ⟨"a", 1, 3⟩ ⟨"c", 0, 8⟩ 42 (1 / 20 : ℚ) (-1)).Error = 1 / 20 ∧
      (true = true →
        (FeaturePair.mk ⟨"a", 1, 3⟩ ⟨"c", 0, 8⟩ 42 (1 / 20 : ℚ) (-1)).Strand = -1) ∧
      (true = false →
        (FeaturePair.mk ⟨"a", 1, 3⟩ ⟨"c", 0, 8⟩ 42 (1 / 20 : ℚ) (-1)).Strand = 1) :=
  NewFeaturePair_score_error_strand 8 packedABC packedABC
    (DPHit.mk 1 3 1 12 42 (1 / 20 : ℚ)) true
    (FeaturePair.mk ⟨"a", 1, 3⟩ ⟨"c", 0, 8⟩ 42 (1 / 20 : ℚ) (-1)) rfl

/-- C10. `NewFeaturePair` returns a pair exactly when both mappings return a
feature, and then `A` is `featureOf` of the target at `Abpos`, `Aepos` without
reflection and `B` is `featureOf` of the query at `Bbpos`, `Bepos` with `comp`.
If the mapping of the target returns an error, that error is returned with no
pair, whatever the query is; if the mapping of the target returns a feature and
that of the query returns an error, that error is returned with no pair. -/
theorem NewFeaturePair_outcome {float64 : Type} (binSize : Int) (target query : PackedSeq)
    (hit : DPHit float64) (comp : Bool) :
    ((∃ pair, NewFeaturePair binSize target query hit comp = Outcome.ok pair) ↔
        (∃ t, featureOf binSize target hit.Abpos hit.Aepos false = Outcome.ok t) ∧
          ∃ q, featureOf binSize query hit.Bbpos hit.Bepos comp = Outcome.ok q) ∧
      (∀ pair, NewFeaturePair binSize target query hit comp = Outcome.ok pair →
        featureOf binSize target hit.Abpos hit.Aepos false = Outcome.ok pair.A ∧
          featureOf binSize query hit.Bbpos hit.Bepos comp = Outcome.ok pair.B) ∧
      (∀ err, featureOf binSize target hit.Abpos hit.Aepos false = Outcome.error err →
        ∀ other : PackedSeq,
          NewFeaturePair binSize target other hit comp = Outcome.error err) ∧
      (∀ t err, featureOf binSize target hit.Abpos hit.Aepos false = Outcome.ok t →
        featureOf binSize query hit.Bbpos hit.Bepos comp = Outcome.error err →
        NewFeaturePair binSize target query hit comp = Outcome.error err) := by
  refine ⟨⟨?_, ?_⟩, ?_, ?_, ?_⟩
  · rintro ⟨pair, h⟩
    unfold NewFeaturePair at h
    split at h
    · cases h
    · cases h
    · rename_i t ht
      split at h
      · cases h
      · cases h
      · rename_i q hq
        exact ⟨⟨t, ht⟩, ⟨q, hq⟩⟩
  · rintro ⟨⟨t, ht⟩, ⟨q, hq⟩⟩
    unfold NewFeaturePair
    simp only [ht, hq]
    exact ⟨_, rfl⟩
  · intro pair h
    unfold NewFeaturePair at h
    split at h
    · cases h
    · cases h
    · rename_i t ht
      split at h
      · cases h
      · cases h
      · rename_i q hq
        cases h
        exact ⟨ht, hq⟩
  · intro err ht other
    unfold NewFeaturePair
    simp only [ht]
  · intro t err ht hq
    unfold NewFeaturePair
    simp only [ht, hq]

end pals

namespace krishna

/-! ## Runs of `main` -/

theorem completed_cons (ev : Event) {run : List Event} (h : run ≠ []) :
    completed (ev :: run) ↔ completed run := by
  cases run with
  | nil => exact absurd rfl h
  | cons a as => simp only [completed, List.getLast?_cons_cons]

theorem not_completed_exit (code : Nat) (message : String) :
    ¬ completed [Event.exit code message] := by
  simp [completed]

theorem strandLoop_ne_nil (cfg : Config) (env : Env) (comps : List Bool) :
    strandLoop cfg env comps ≠ [] := by
  induction comps with
  | nil => simp [strandLoop]
  | cons comp rest ih =>
    simp only [strandLoop]
    split_ifs <;> simp [ih]

theorem strandLoop_alignCalls (cfg : Config) (env : Env) :
    alignCalls (strandLoop cfg env [false, true]) =
      if cfg.sameStrand = true then [false]
      else if env.aligns false = true ∧ env.writes false = true then [false, true]
      else [false] := by
  simp only [strandLoop]
  cases cfg.sameStrand <;> cases env.aligns false <;> cases env.writes false <;>
    cases env.aligns true <;> cases env.writes true <;> rfl

theorem strandLoop_completed (cfg : Config) (env : Env)
    (h : completed (strandLoop cfg env [false, true])) :
    cfg.sameStrand = true ∨ (env.aligns false = true ∧ env.writes false = true) := by
  revert h
  simp only [strandLoop, completed]
  cases cfg.sameStrand <;> cases env.aligns false <;> cases env.writes false <;>
    cases env.aligns true <;> cases env.writes true <;> simp

theorem reachesLoop_exit (cfg : Config) (env : Env) (code : Nat) (message : String) :
    reachesLoop cfg env [Event.exit code message] :=
  Or.inr ⟨rfl, not_completed_exit code message, by simp⟩

theorem reachesLoop_cons (cfg : Config) (env : Env) (ev : Event) (run : List Event)
    (hev : alignCalls (ev :: run) = alignCalls run) (h : reachesLoop cfg env run) :
    reachesLoop cfg env (ev :: run) := by
  rcases h with ⟨h1, h2, h3⟩ | ⟨h1, h2, h3⟩
  · exact Or.inl ⟨hev.trans h1, (completed_cons ev h3).trans h2, by simp⟩
  · exact Or.inr ⟨hev.trans h1, fun hc => h2 ((completed_cons ev h3).mp hc), by simp⟩

theorem alignStage_reachesLoop (cfg : Config) (env : Env) (target query : SeqRef) :
    reachesLoop cfg env (alignStage cfg env target query) := by
  unfold alignStage
  split_ifs
  · exact reachesLoop_exit _ _ _ _
  · exact reachesLoop_cons _ _ _ _ rfl (reachesLoop_exit _ _ _ _)
  · exact reachesLoop_cons _ _ _ _ rfl (reachesLoop_cons _ _ _ _ rfl (reachesLoop_exit _ _ _ _))
  · exact reachesLoop_cons _ _ _ _ rfl (reachesLoop_cons _ _ _ _ rfl
      (Or.inl ⟨rfl, Iff.rfl, strandLoop_ne_nil _ _ _⟩))

theorem queryStage_reachesLoop (cfg : Config) (env : Env) :
    reachesLoop cfg env (queryStage cfg env) := by
  unfold queryStage
  split_ifs
  · exact reachesLoop_cons _ _ _ _ rfl (alignStage_reachesLoop _ _ _ _)
  · exact reachesLoop_cons _ _ _ _ rfl (reachesLoop_exit _ _ _ _)
  · exact reachesLoop_exit _ _ _ _
  · exact alignStage_reachesLoop _ _ _ _

theorem main_reachesLoop (cfg : Config) (env : Env) : reachesLoop cfg env (main cfg env) := by
  unfold main
  split_ifs
  · exact reachesLoop_exit _ _ _ _
  · exact reachesLoop_exit _ _ _ _
  · exact reachesLoop_exit _ _ _ _
  · exact reachesLoop_cons _ _ _ _ rfl (reachesLoop_exit _ _ _ _)
  · exact reachesLoop_cons _ _ _ _ rfl (reachesLoop_exit _ _ _ _)
  · exact reachesLoop_cons _ _ _ _ rfl (queryStage_reachesLoop _ _)

theorem strandLoop_same_no_comp (cfg : Config) (env : Env) (h : cfg.sameStrand = true) :
    ∀ ev ∈ strandLoop cfg env [false, true],
      ev ≠ Event.align true ∧ ev ≠ Event.writeHits true := by
  simp only [strandLoop, h]
  cases env.aligns false <;> cases env.writes false <;>
    simp only [Bool.not_true, Bool.not_false, Bool.or_true, Bool.or_false, if_true, if_false,
      Bool.false_eq_true, List.mem_cons, List.mem_singleton, List.not_mem_nil, or_false] <;>
    intro ev hev <;> rcases hev with rfl | rfl | rfl | rfl <;> simp

theorem noComp_cons {ev : Event} {run : List Event}
    (hev : ev ≠ Event.align true ∧ ev ≠ Event.writeHits true)
    (h : ∀ e ∈ run, e ≠ Event.align true ∧ e ≠ Event.writeHits true) :
    ∀ e ∈ ev :: run, e ≠ Event.align true ∧ e ≠ Event.writeHits true :=
  List.forall_mem_cons.2 ⟨hev, h⟩

theorem noComp_exit (code : Nat) (message : String) :
    ∀ e ∈ [Event.exit code message], e ≠ Event.align true ∧ e ≠ Event.writeHits true := by
  intro e he
  rw [List.mem_singleton] at he
  subst he
  simp

theorem alignStage_same_no_comp (cfg : Config) (env : Env) (target query : SeqRef)
    (h : cfg.sameStrand = true) :
    ∀ ev ∈ alignStage cfg env target query,
      ev ≠ Event.align true ∧ ev ≠ Event.writeHits true := by
  unfold alignStage
  split_ifs
  · exact noComp_exit _ _
  · exact noComp_cons (by simp) (noComp_exit _ _)
  · exact noComp_cons (by simp) (noComp_cons (by simp) (noComp_exit _ _))
  · exact noComp_cons (by simp) (noComp_cons (by simp) (strandLoop_same_no_comp cfg env h))

theorem queryStage_same_no_comp (cfg : Config) (env : Env) (h : cfg.sameStrand = true) :
    ∀ ev ∈ queryStage cfg env, ev ≠ Event.align true ∧ ev ≠ Event.writeHits true := by
  unfold queryStage
  split_ifs
  · exact noComp_cons (by simp) (alignStage_same_no_comp _ _ _ _ h)
  · exact noComp_cons (by simp) (noComp_exit _ _)
  · exact noComp_exit _ _
  · exact alignStage_same_no_comp _ _ _ _ h

theorem main_same_no_comp (cfg : Config) (env : Env) (h : cfg.sameStrand = true) :
    ∀ ev ∈ main cfg env, ev ≠ Event.align true ∧ ev ≠ Event.writeHits true := by
  unfold main
  split_ifs
  · exact noComp_exit _ _
  · exact noComp_exit _ _
  · exact noComp_exit _ _
  · exact noComp_cons (by simp) (noComp_exit _ _)
  · exact noComp_cons (by simp) (noComp_exit _ _)
  · exact noComp_cons (by simp) (queryStage_same_no_comp _ _ h)

/-! ## Claims about `krishna` -/

/-- C11. With `sameStrand` set, a run of `main` calls `Align` with
`comp = false` only, at most once and never with `comp = true`, it writes no
hits of the complementary strand, and a run that reaches the end of `main`
calls `Align(false)` exactly once. With `sameStrand` unset, the
calls of `Align` are an initial part of `Align(false)`, `Align(true)`, and a
run that reaches the end of `main` makes both, in that order, once each. -/
theorem main_align_calls (cfg : Config) (env : Env) :
    (cfg.sameStrand = true →
        alignCalls (main cfg env) <+: [false] ∧
          (∀ ev ∈ main cfg env, ev ≠ Event.align true ∧ ev ≠ Event.writeHits true) ∧
          (completed (main cfg env) → alignCalls (main cfg env) = [false])) ∧
      (cfg.sameStrand = false →
        alignCalls (main cfg env) <+: [false, true] ∧
          (completed (main cfg env) → alignCalls (main cfg env) = [false, true])) := by
  have hloop := strandLoop_alignCalls cfg env
  constructor
  · intro hs
    rw [if_pos hs] at hloop
    have hno := main_same_no_comp cfg env hs
    rcases main_reachesLoop cfg env with ⟨h1, -, -⟩ | ⟨h1, h2, -⟩
    · rw [h1, hloop]
      exact ⟨List.prefix_refl _, hno, fun _ => rfl⟩
    · rw [h1]
      exact ⟨List.nil_prefix, hno, fun hc => absurd hc h2⟩
  · intro hs
    have hs' : ¬ cfg.sameStrand = true := by simp [hs]
    rw [if_neg hs'] at hloop
    rcases main_reachesLoop cfg env with ⟨h1, h2, -⟩ | ⟨h1, h2, -⟩
    · rw [h1, hloop]
      constructor
      · split_ifs
        · exact List.prefix_refl _
        · exact ⟨[true], rfl⟩
      · intro hc
        rcases strandLoop_completed cfg env (h2.mp hc) with h | h
        · exact absurd h hs'
        · rw [if_pos h]
    · rw [h1]
      exact ⟨List.nil_prefix, fun hc => absurd hc h2⟩


theorem main_align_calls_witness :
    alignCalls (main cfgSelfSame envOk) = [false] ∧
      alignCalls (main cfgBoth envOk) = [false, true] :=
  ⟨((main_align_calls cfgSelfSame envOk).1 rfl).2.2 rfl,
    ((main_align_calls cfgBoth envOk).2 rfl).2 rfl⟩

/-- C12, on the code. With `-dplen 100 -dpid 0.9` and the default filter flags
`-filtlen 400 -filtid 0.94`, the override step sets the DP parameters to the
filter thresholds, `MinHitLength = 400` and `MinId = 0.94`, not to
`dpMinHitLen = 100` and `dpMinId = 0.9`; these are the parameters in force in
the run. -/
theorem overrideDPParams_uses_filter_flags :
    cfgDP.dpMinHitLen = 100 ∧ cfgDP.dpMinId = 9 / 10 ∧
      overrideDPParams cfgDP envOk.optimisedParams =
        { MinHitLength := 400, MinId := 94 / 100 } ∧
      overrideDPParams cfgDP envOk.optimisedParams ≠
        { MinHitLength := cfgDP.dpMinHitLen, MinId := cfgDP.dpMinId } ∧
      Event.dpParams { MinHitLength := 400, MinId := 94 / 100 } ∈ main cfgDP envOk := by
  have hov : overrideDPParams cfgDP envOk.optimisedParams =
      { MinHitLength := 400, MinId := 94 / 100 } := by
    norm_num [overrideDPParams, cfgDP, cfgBoth]
  refine ⟨rfl, rfl, hov, ?_, ?_⟩
  · rw [hov]
    norm_num [cfgDP, cfgBoth]
  · have hmain : main cfgDP envOk =
        [Event.pack "t.fa", Event.pack "q.fa",
          Event.newPals (SeqRef.first "t.fa") (SeqRef.second "q.fa") false,
          Event.dpParams (overrideDPParams cfgDP envOk.optimisedParams),
          Event.align false, Event.writeHits false, Event.align true,
          Event.writeHits true, Event.cleanUp] := by
      simp [main, queryStage, alignStage, strandLoop, cfgDP, cfgBoth, envOk]
    rw [hmain, hov]
    simp

/-- C13. Missing required input ends the run before any alignment work. With
an empty `targetName` the run of `main` is a single `exit` event. With
`selfCompare` unset and an empty `queryName` the run ends in an `exit` and holds
no event of alignment work. With `selfCompare` set the run does not depend on
`queryName`, and the aligner is built with the target as its query. -/
theorem main_missing_input (cfg : Config) (env : Env) :
    (cfg.targetName = "" → ∃ code message, main cfg env = [Event.exit code message]) ∧
      (cfg.selfCompare = false → cfg.queryName = "" →
        aborted (main cfg env) ∧ ∀ ev ∈ main cfg env, isAlignmentWork ev = false) ∧
      (cfg.selfCompare = true →
        (∀ name : String, main { cfg with queryName := name } env = main cfg env) ∧
          ∀ target query self, Event.newPals target query self ∈ main cfg env →
            query = target) := by
  refine ⟨?_, ?_, ?_⟩
  · intro ht
    unfold main
    split_ifs
    · exact ⟨_, _, rfl⟩
    · exact ⟨_, _, rfl⟩
    · exact ⟨_, _, rfl⟩
  · intro hs hq
    have hqs : queryStage cfg env =
        [Event.exit 1 "No query provided in non-self comparison."] := by
      simp [queryStage, hs, hq]
    unfold main
    rw [hqs]
    split_ifs
    · exact ⟨⟨_, _, rfl⟩, by simp [isAlignmentWork]⟩
    · exact ⟨⟨_, _, rfl⟩, by simp [isAlignmentWork]⟩
    · exact ⟨⟨_, _, rfl⟩, by simp [isAlignmentWork]⟩
    · exact ⟨⟨_, _, rfl⟩, by simp [isAlignmentWork]⟩
    · exact ⟨⟨_, _, rfl⟩, by simp [isAlignmentWork]⟩
    · exact ⟨⟨_, _, rfl⟩, by simp [isAlignmentWork]⟩
  · intro hs
    constructor
    · intro name
      simp only [main, queryStage, alignStage, strandLoop, overrideDPParams, hs, Bool.not_true,
        Bool.false_eq_true, if_false]
    · intro target query self hmem
      have hqs : queryStage cfg env =
          alignStage cfg env (SeqRef.first cfg.targetName) (SeqRef.first cfg.targetName) := by
        simp [queryStage, hs]
      have hal : ∀ ev ∈ alignStage cfg env (SeqRef.first cfg.targetName)
          (SeqRef.first cfg.targetName), ev = Event.newPals target query self →
          query = target := by
        intro ev hev heq
        subst heq
        unfold alignStage at hev
        simp only [strandLoop] at hev
        split_ifs at hev <;>
          simp only [List.mem_cons, List.mem_singleton, List.not_mem_nil, or_false,
            reduceCtorEq, false_or, Event.newPals.injEq] at hev
        all_goals exact hev.2.1.trans hev.1.symm
      unfold main at hmem
      rw [hqs] at hmem
      split_ifs at hmem <;>
        simp only [List.mem_cons, List.mem_singleton, List.not_mem_nil, reduceCtorEq,
          false_or, or_false] at hmem
      exact hal _ hmem rfl

theorem main_missing_input_witness :
    (∃ code message,
        main { cfgBoth with targetName := "" } envOk = [Event.exit code message]) ∧
      aborted (main { cfgBoth with queryName := "" } envOk) ∧
      main { cfgSelfSame with queryName := "q.fa" } envOk = main cfgSelfSame envOk :=
  ⟨(main_missing_input { cfgBoth with targetName := "" } envOk).1 rfl,
    ((main_missing_input { cfgBoth with queryName := "" } envOk).2.1 rfl rfl).1,
    ((main_missing_input cfgSelfSame envOk).2.2 rfl).1 "q.fa"⟩

/-- C14, on the code. With `-mem 1024`, `init` stops in a nil pointer
dereference at `*mem = uintptr(maxMem)` and leaves no value in `mem`; with the
default `-mem 0` it returns with `mem` nil. -/
theorem init_mem_faults :
    init false 1024 = InitOutcome.fault ∧ init false 1 = InitOutcome.fault ∧
      init false 0 = InitOutcome.done none := by
  decide

end krishna

namespace fasta

/-! ## The pieces of `Read` and `Format` -/

theorem readBytes_of_not_mem (delim : Char) :
    ∀ l : List Char, delim ∉ l → readBytes delim l = (l, [], true)
  | [], _ => rfl
  | c :: cs, h => by
    have hc : c ≠ delim := fun e => h (e ▸ List.mem_cons_self _ _)
    have hcs : delim ∉ cs := fun e => h (List.mem_cons_of_mem _ e)
    simp [readBytes, hc, readBytes_of_not_mem delim cs hcs]

theorem replaceGo_of_not_mem (old new : List Char) (x : Char) (hx : x ∈ old) :
    ∀ s : List Char, x ∉ s → replaceGo old new 0 s = s
  | [], _ => rfl
  | c :: cs, h => by
    have hpre : ¬ old.isPrefixOf (c :: cs) = true := by
      intro hp
      exact h ((List.isPrefixOf_iff_prefix.mp hp).subset hx)
    have hcs : x ∉ cs := fun e => h (List.mem_cons_of_mem _ e)
    simp [replaceGo, hpre, replaceGo_of_not_mem old new x hx cs hcs]

theorem sanitize_of_not_mem (s : List Char) (h : '\r' ∉ s) : sanitize s = s := by
  unfold sanitize bytesReplace
  rw [replaceGo_of_not_mem _ _ '\r' (by simp) s h, replaceGo_of_not_mem _ _ '\r' (by simp) s h,
    replaceGo_of_not_mem _ _ '\r' (by simp) s h]

theorem splitOn_lines :
    ∀ L : List (List Char), (∀ l ∈ L, '\n' ∉ l) →
      ((L.map (· ++ ['\n'])).flatten).splitOn '\n' = L ++ [[]]
  | [], _ => rfl
  | l :: L, h => by
    have hl : ∀ x ∈ l, ¬ (x == '\n') = true := by
      intro x hx hxe
      have : x = '\n' := by simpa using hxe
      exact h l (List.mem_cons_self _ _) (this ▸ hx)
    have ih := splitOn_lines L (fun l' hl' => h l' (List.mem_cons_of_mem _ hl'))
    simp only [List.map_cons, List.flatten_cons, List.append_assoc, List.singleton_append]
    unfold List.splitOn at ih ⊢
    rw [List.splitOnP_first _ _ hl '\n' (by simp), ih]
    rfl

theorem formatLoop_lines (seq : List Char) (w : Nat) (hw : 0 < w) :
    ∀ (fuel i : Nat) (acc : List Char), seq.length < (i + fuel) * w →
      ∃ L : List (List Char),
        formatLoop seq w fuel i acc = acc ++ (L.map (· ++ ['\n'])).flatten ∧
          L.flatten = seq.drop (w * i) ∧ ∀ l ∈ L, ∀ c ∈ l, c ∈ seq
  | 0, i, acc, h => by
    refine ⟨[], by simp [formatLoop], ?_, by simp⟩
    have : seq.length ≤ w * i := by
      rw [Nat.add_zero, Nat.mul_comm] at h
      omega
    simp [List.drop_eq_nil_of_le this]
  | fuel + 1, i, acc, h => by
    by_cases hc : i * w ≤ seq.length
    · have h' : seq.length < (i + 1 + fuel) * w := by
        have : i + 1 + fuel = i + (fuel + 1) := by omega
        rw [this]; exact h
      obtain ⟨L, hL, hflat, hmem⟩ := formatLoop_lines seq w hw fuel (i + 1)
        (acc ++ slice seq (w * i) (min (w * (i + 1)) seq.length) ++ ['\n']) h'
      refine ⟨slice seq (w * i) (min (w * (i + 1)) seq.length) :: L, ?_, ?_, ?_⟩
      · simp only [formatLoop, hc, if_true, hL]
        simp [List.append_assoc]
      · simp only [List.flatten_cons, hflat, slice]
        by_cases hle : w * (i + 1) ≤ seq.length
        · rw [Nat.min_eq_left hle]
          have e1 : w * (i + 1) - w * i = w := by
            rw [Nat.mul_add, Nat.mul_one]; omega
          have e2 : w * (i + 1) = w * i + w := by rw [Nat.mul_add, Nat.mul_one]
          rw [e1, e2, ← List.drop_drop, List.take_append_drop]
        · have hlt : seq.length ≤ w * (i + 1) := by omega
          rw [Nat.min_eq_right hlt, List.drop_eq_nil_of_le hlt, List.append_nil]
          apply List.take_of_length_le
          simp
      · intro l hl c hcl
        rcases List.mem_cons.mp hl with rfl | hl
        · exact List.mem_of_mem_drop (List.mem_of_mem_take hcl)
        · exact hmem l hl c hcl
    · refine ⟨[], by simp [formatLoop, hc], ?_, by simp⟩
      have : seq.length ≤ w * i := by
        rw [Nat.mul_comm] at hc
        omega
      simp [List.drop_eq_nil_of_le this]

theorem Format_lines (s : Seq) (width : Int) :
    ∃ L : List (List Char),
      Format s width = '>' :: (s.ID ++ ['\n'] ++ (L.map (· ++ ['\n'])).flatten) ∧
        L.flatten = s.Seq ∧ ∀ l ∈ L, ∀ c ∈ l, c ∈ s.Seq := by
  unfold Format
  by_cases hw : width > 0
  · have hpos : 0 < width.toNat := by omega
    have hfuel : s.Seq.length < (0 + (s.Seq.length + 1)) * width.toNat := by
      rw [Nat.zero_add]
      calc s.Seq.length < s.Seq.length + 1 := Nat.lt_succ_self _
        _ = (s.Seq.length + 1) * 1 := (Nat.mul_one _).symm
        _ ≤ (s.Seq.length + 1) * width.toNat := Nat.mul_le_mul_left _ hpos
    obtain ⟨L, hL, hflat, hmem⟩ := formatLoop_lines s.Seq width.toNat hpos
      (s.Seq.length + 1) 0 ('>' :: s.ID ++ ['\n']) hfuel
    refine ⟨L, ?_, by simpa using hflat, hmem⟩
    simp only [hw, if_true, hL]
    simp
  · refine ⟨[s.Seq], ?_, by simp, ?_⟩
    · simp [hw]
    · intro l hl c hc
      rw [List.mem_singleton] at hl
      exact hl ▸ hc

theorem parseRecord_lines (id : List Char) (L : List (List Char)) (hid : id ≠ [])
    (hbody : L.flatten ≠ []) (hidc : '\n' ∉ id ∧ '\r' ∉ id)
    (hL : ∀ l ∈ L, '\n' ∉ l ∧ '\r' ∉ l) :
    parseRecord (id ++ ['\n'] ++ (L.map (· ++ ['\n'])).flatten) =
      ReadResult.ok { ID := id, Seq := L.flatten } := by
  have hrec : id ++ ['\n'] ++ (L.map (· ++ ['\n'])).flatten =
      ((id :: L).map (· ++ ['\n'])).flatten := by simp
  have hcr : '\r' ∉ ((id :: L).map (· ++ ['\n'])).flatten := by
    intro hmem
    obtain ⟨l', hl', hc⟩ := List.mem_flatten.mp hmem
    obtain ⟨l, hl, rfl⟩ := List.mem_map.mp hl'
    rcases List.mem_append.mp hc with hc | hc
    · rcases List.mem_cons.mp hl with rfl | hl
      · exact hidc.2 hc
      · exact (hL l hl).2 hc
    · simp at hc
  have hsplit : (((id :: L).map (· ++ ['\n'])).flatten).splitOn '\n' = id :: (L ++ [[]]) := by
    apply splitOn_lines
    intro l hl
    rcases List.mem_cons.mp hl with rfl | hl
    · exact hidc.1
    · exact (hL l hl).1
  have hlen : (id :: (L ++ [[]])).length > 1 := by simp
  have hslice : slice (id :: (L ++ [[]])) 1 ((id :: (L ++ [[]])).length - 1) = L := by
    simp [slice]
  have hidlen : id.length > 0 := List.length_pos.mpr hid
  have hbodylen : L.flatten.length > 0 := List.length_pos.mpr hbody
  rw [hrec]
  unfold parseRecord
  simp only [sanitize_of_not_mem _ hcr, hsplit, hlen, if_true, hslice, List.headD_cons]
  rw [if_pos ⟨hidlen, hbodylen⟩]

/-! ## Claims about `fasta` -/

/-- C15, on the code. For the sequence `ACGT` and `width = 2`, whose length is
a multiple of the width, `Format` writes the header and three sequence lines,
`AC`, `GT` and an empty line, not the two lines `ceil(4 / 2)`: the loop
condition `i*width <= s.Len()` admits `i = 2`. For `ACGTA` it writes the three
lines `AC`, `GT`, `A`. -/
theorem Format_trailing_empty_line :
    Format { ID := "id".toList, Seq := "ACGT".toList } 2 = ">id\nAC\nGT\n\n".toList ∧
      Format { ID := "id".toList, Seq := "ACGTA".toList } 2 = ">id\nAC\nGT\nA\n".toList := by
  decide

/-- C16, on the code. For the input `>id`, `AC`, `GT` whose last line has no
newline, `Read` returns the sequence `AC`: the last line `GT` is dropped. For
the input `>id`, `ACGT` without a final newline, `Read` returns the error
"Invalid fasta entry" although the label and the sequence line are not
empty. With the final newline both records are read in full. -/
theorem Read_drops_unterminated_line :
    Read ">id\nAC\nGT".toList =
        some (ReadResult.ok { ID := "id".toList, Seq := "AC".toList }, []) ∧
      Read ">id\nACGT".toList = some (ReadResult.invalid, []) ∧
      Read ">id\nAC\nGT\n".toList =
        some (ReadResult.ok { ID := "id".toList, Seq := "ACGT".toList }, []) ∧
      Read ">id\nACGT\n".toList =
        some (ReadResult.ok { ID := "id".toList, Seq := "ACGT".toList }, []) := by
  decide

/-- C18. FASTA round trip: for a sequence whose `ID` and `Seq` are not empty
and hold no `>`, line feed or carriage return, and for every width, `Read` on
the text `Format s width` returns the sequence `s` and leaves no input, and a
second `Read`, on the input left, returns `io.EOF`. -/
theorem Read_Format_round_trip (s : Seq) (width : Int) (hid : s.ID ≠ [])
    (hseq : s.Seq ≠ [])
    (hidc : ∀ c ∈ s.ID, c ≠ '>' ∧ c ≠ '\n' ∧ c ≠ '\r')
    (hseqc : ∀ c ∈ s.Seq, c ≠ '>' ∧ c ≠ '\n' ∧ c ≠ '\r') :
    Read (Format s width) = some (ReadResult.ok s, []) ∧
      Read [] = some (ReadResult.eof, []) := by
  refine ⟨?_, rfl⟩
  obtain ⟨L, hF, hflat, hmem⟩ := Format_lines s width
  have hLc : ∀ l ∈ L, ∀ c ∈ l, c ≠ '>' ∧ c ≠ '\n' ∧ c ≠ '\r' :=
    fun l hl c hc => hseqc c (hmem l hl c hc)
  have hgt : '>' ∉ s.ID ++ ['\n'] ++ (L.map (· ++ ['\n'])).flatten := by
    intro hm
    rcases List.mem_append.mp hm with hm | hm
    · rcases List.mem_append.mp hm with hm | hm
      · exact (hidc _ hm).1 rfl
      · simp at hm
    · obtain ⟨l', hl', hc⟩ := List.mem_flatten.mp hm
      obtain ⟨l, hl, rfl⟩ := List.mem_map.mp hl'
      rcases List.mem_append.mp hc with hc | hc
      · exact (hLc l hl _ hc).1 rfl
      · simp at hc
  have hlen : (s.ID ++ ['\n'] ++ (L.map (· ++ ['\n'])).flatten).length > 1 := by
    have : s.ID.length > 0 := List.length_pos.mpr hid
    simp only [List.length_append, List.length_singleton]
    omega
  have hparse := parseRecord_lines s.ID L hid (by rw [hflat]; exact hseq)
    ⟨fun h => (hidc _ h).2.1 rfl, fun h => (hidc _ h).2.2 rfl⟩
    (fun l hl => ⟨fun h => (hLc l hl _ h).2.1 rfl, fun h => (hLc l hl _ h).2.2 rfl⟩)
  have hfirst : ∀ (fuel : Nat) (rest : List Char),
      readLoop (fuel + 1) ('>' :: rest) = readLoop fuel rest := by
    intro fuel rest
    simp [readLoop, readBytes]
  have hsecond : ∀ fuel : Nat,
      readLoop (fuel + 1) (s.ID ++ ['\n'] ++ (L.map (· ++ ['\n'])).flatten) =
        some (ReadResult.ok { ID := s.ID, Seq := L.flatten }, []) := by
    intro fuel
    simp only [readLoop, readBytes_of_not_mem '>' _ hgt, hlen, if_true, hparse]
  rw [hF]
  unfold Read
  rw [List.length_cons, hfirst, hsecond, hflat]

theorem Read_Format_round_trip_witness :
    Read (Format { ID := "id".toList, Seq := "ACGT".toList } 2) =
        some (ReadResult.ok { ID := "id".toList, Seq := "ACGT".toList }, []) ∧
      Read [] = some (ReadResult.eof, []) :=
  Read_Format_round_trip { ID := "id".toList, Seq := "ACGT".toList } 2 (by decide)
    (by decide) (by decide) (by decide)

end fasta

namespace color

/-! ## The remainder `math.Mod` -/

theorem fmod_bounds (x y : ℚ) (hy : 0 < y) : -y < fmod x y ∧ fmod x y < y := by
  have hyne : y ≠ 0 := ne_of_gt hy
  have hx : x = y * (x / y) := by field_simp
  unfold fmod trunc
  split_ifs with hq
  · have h1 := Int.floor_le (x / y)
    have h2 := Int.lt_floor_add_one (x / y)
    constructor <;> nlinarith
  · have h1 := Int.le_ceil (x / y)
    have h2 := Int.ceil_lt_add_one (x / y)
    constructor <;> nlinarith

theorem fmod_nonneg (x y : ℚ) (hy : 0 < y) (hx0 : 0 ≤ x) : 0 ≤ fmod x y := by
  have hyne : y ≠ 0 := ne_of_gt hy
  have hx : x = y * (x / y) := by field_simp
  have hq : 0 ≤ x / y := div_nonneg hx0 (le_of_lt hy)
  unfold fmod trunc
  rw [if_pos hq]
  have h1 := Int.floor_le (x / y)
  nlinarith

theorem fmod_self (y : ℚ) (hy : 0 < y) : fmod y y = 0 := by
  have hyne : y ≠ 0 := ne_of_gt hy
  simp [fmod, trunc, div_self hyne]

theorem fmod_zero_left (y : ℚ) : fmod 0 y = 0 := by
  simp [fmod, trunc]

/-- The last step of `RGBAtoHSVA`, `math.Mod(math.Mod(hue, 360)+360, 360)`, lands
in `[0, 360)` whatever `hue` is. -/
theorem fmod_wrap_bounds (hue : ℚ) :
    0 ≤ fmod (fmod hue 360 + 360) 360 ∧ fmod (fmod hue 360 + 360) 360 ≤ 360 ∧
      fmod (fmod hue 360 + 360) 360 < 360 := by
  have h360 : (0 : ℚ) < 360 := by norm_num
  have hin := fmod_bounds hue 360 h360
  have hout := fmod_bounds (fmod hue 360 + 360) 360 h360
  have hnn := fmod_nonneg (fmod hue 360 + 360) 360 h360 (by linarith [hin.1])
  exact ⟨hnn, le_of_lt hout.2, hout.2⟩

/-! ## Claims about `color` -/

/-- C17. `RGBAtoHSVA` produces a valid HSVA colour: for channel values `r`,
`g`, `b`, `a` in `[0, 0xFFFF]`, with exact arithmetic, the result has `H` in
`[0, 360]` (and below `360`), `S`, `V` and `A` in `[0, 1]`, and `H = 0` and
`S = 0` when `r = g = b`. -/
theorem RGBAtoHSVA_valid (r g b a : Nat) (hr : r ≤ 0xFFFF) (hg : g ≤ 0xFFFF)
    (hb : b ≤ 0xFFFF) (ha : a ≤ 0xFFFF) :
    (0 ≤ (RGBAtoHSVA r g b a).H ∧ (RGBAtoHSVA r g b a).H ≤ 360 ∧
        (RGBAtoHSVA r g b a).H < 360) ∧
      (0 ≤ (RGBAtoHSVA r g b a).S ∧ (RGBAtoHSVA r g b a).S ≤ 1) ∧
      (0 ≤ (RGBAtoHSVA r g b a).V ∧ (RGBAtoHSVA r g b a).V ≤ 1) ∧
      (0 ≤ (RGBAtoHSVA r g b a).A ∧ (RGBAtoHSVA r g b a).A ≤ 1) ∧
      (r = g → g = b → (RGBAtoHSVA r g b a).H = 0 ∧ (RGBAtoHSVA r g b a).S = 0) := by
  have hr0 : (0 : ℚ) ≤ (r : ℚ) := Nat.cast_nonneg r
  have hg0 : (0 : ℚ) ≤ (g : ℚ) := Nat.cast_nonneg g
  have hb0 : (0 : ℚ) ≤ (b : ℚ) := Nat.cast_nonneg b
  have ha0 : (0 : ℚ) ≤ (a : ℚ) := Nat.cast_nonneg a
  have hr1 : (r : ℚ) ≤ 65535 := by exact_mod_cast hr
  have hg1 : (g : ℚ) ≤ 65535 := by exact_mod_cast hg
  have hb1 : (b : ℚ) ≤ 65535 := by exact_mod_cast hb
  have ha1 : (a : ℚ) ≤ 65535 := by exact_mod_cast ha
  have hmax0 : (0 : ℚ) ≤ max (max (r : ℚ) g) b := le_max_of_le_left (le_max_of_le_left hr0)
  have hmax1 : max (max (r : ℚ) g) b ≤ 65535 := max_le (max_le hr1 hg1) hb1
  have hmin0 : (0 : ℚ) ≤ min (min (r : ℚ) g) b := le_min (le_min hr0 hg0) hb0
  have hminmax : min (min (r : ℚ) g) b ≤ max (max (r : ℚ) g) b :=
    le_trans (min_le_left _ _) (le_trans (min_le_left _ _)
      (le_trans (le_max_left _ _) (le_max_left _ _)))
  refine ⟨?_, ?_, ?_, ?_, ?_⟩
  · simp only [RGBAtoHSVA]
    exact fmod_wrap_bounds _
  · simp only [RGBAtoHSVA]
    split_ifs with hc
    · have hmaxpos : 0 < max (max (r : ℚ) g) b := by
        rcases lt_or_eq_of_le hmax0 with h | h
        · exact h
        · exfalso
          apply hc
          have : min (min (r : ℚ) g) b = 0 := le_antisymm (by rw [h]; exact hminmax) hmin0
          rw [← h, this, sub_zero]
      constructor
      · exact div_nonneg (by linarith) hmax0
      · rw [div_le_one hmaxpos]
        linarith
    · exact ⟨le_refl _, by norm_num⟩
  · simp only [RGBAtoHSVA, maxChannelValue]
    constructor
    · exact div_nonneg hmax0 (by norm_num)
    · rw [div_le_one (by norm_num)]
      exact hmax1
  · simp only [RGBAtoHSVA, maxChannelValue]
    constructor
    · exact div_nonneg ha0 (by norm_num)
    · rw [div_le_one (by norm_num)]
      exact ha1
  · intro h1 h2
    subst h1
    subst h2
    simp [RGBAtoHSVA, fmod_zero_left, fmod_self]

theorem RGBAtoHSVA_valid_witness :
    (0 ≤ (RGBAtoHSVA 200 50 100 65535).H ∧ (RGBAtoHSVA 200 50 100 65535).H ≤ 360 ∧
        (RGBAtoHSVA 200 50 100 65535).H < 360) ∧
      (0 ≤ (RGBAtoHSVA 200 50 100 65535).S ∧ (RGBAtoHSVA 200 50 100 65535).S ≤ 1) ∧
      (0 ≤ (RGBAtoHSVA 200 50 100 65535).V ∧ (RGBAtoHSVA 200 50 100 65535).V ≤ 1) ∧
      (0 ≤ (RGBAtoHSVA 200 50 100 65535).A ∧ (RGBAtoHSVA 200 50 100 65535).A ≤ 1) ∧
      ((200 : Nat) = 50 → (50 : Nat) = 100 →
        (RGBAtoHSVA 200 50 100 65535).H = 0 ∧ (RGBAtoHSVA 200 50 100 65535).S = 0) :=
  RGBAtoHSVA_valid 200 50 100 65535 (by decide) (by decide) (by decide) (by decide)

end color

namespace tree

/-! ## Claims about `tree` -/

/-- C19, on the code. For a root `0` with the leaf children `1`, `2`,
`Nodes(PreOrder, true)` is `0, 2, 1`: the children come in the reverse of their
stored order; and `Nodes(PreOrder, false)` is `0` alone, the root without its
descendants. For the tree `nested`, `Nodes(PreOrder, true)` is `0, 2, 1, 3, 1`:
node `1` is visited twice and before node `3`. -/
theorem PreOrder_not_preorder :
    NodesPreOrder twoLeaves 0 true 10 = some [0, 2, 1] ∧
      NodesPreOrder twoLeaves 0 false 10 = some [0] ∧
      NodesPreOrder nested 0 true 10 = some [0, 2, 1, 3, 1] := by
  decide

end tree
